import Mathlib

/-!
A shallow embedding of the lexer in `src/src/lex.rs` (rust-crossplane).

The Rust pipeline is `lex = balance_braces ∘ tokenize`, where `tokenize`
pulls from `line_count(escape_chars(read_chars(reader)))`.

Modelling decisions, all taken from the source:

* `read_chars` turns the input into a list of single-character strings; we
  model the raw input as `List Char` and stream items as `String`, because
  `escape_chars` can emit two-character items (a backslash pair).
* `escape_chars` is a `std::iter::from_fn` closure over a peekable raw-char
  iterator.  One call of that closure is `escape_chars_step`.  Crucially, on
  a backslash immediately followed by a newline the closure does `return
  None` after consuming only the backslash: the iteration pass ends there,
  but the closure is re-run on a later `next()` call and then resumes with
  the (unconsumed) newline.  `escape_chars` below collects the items of one
  pass (up to the first `None`), which is what a plain iterator consumer
  sees; the tokenizer is modelled over `escape_chars_step` directly so that
  the resumption behaviour of the Rust code is kept.
* `line_count` is `Iterator::map` with a mutable counter starting at 1; the
  counter is incremented *before* the newline item is tagged.
* Rust's `str::trim().is_empty()` whitespace test is modelled with
  `rust_is_whitespace`, an enumeration of the Unicode White_Space code
  points that `char::is_whitespace` recognizes.
* `i32` depth arithmetic in `balance_braces` is modelled with `Int`
  (overflow is immaterial for the stated properties).
-/

structure ParseError where
  what : String
  line : Nat
deriving DecidableEq, Repr

structure NgxToken where
  value : String
  line : Nat
  is_quoted : Bool
  error : Option ParseError
deriving DecidableEq, Repr

structure CharLine where
  char : String
  line : Nat
deriving DecidableEq, Repr

/-- One call of the `from_fn` closure inside `escape_chars` (lex.rs:240-264):
returns the produced item (`none` ends the pass) and the remaining raw
input.  The `ch == "\\\r"` comparison in the source is dead code because
`read_chars` only yields single-character strings, so it is not modelled. -/
def escape_chars_step : List Char → Option String × List Char
  | [] => (none, [])
  | c :: rest =>
    if c = '\\' then
      match rest with
      | [] => (some (String.mk ['\\']), [])
      | n :: rest2 =>
        if n = '\n' then (none, n :: rest2) else (some (String.mk [c, n]), rest2)
    else if c = '\r' then escape_chars_step rest
    else (some (String.mk [c]), rest)

/-- The items produced by one iteration pass of `escape_chars`, i.e. what a
consumer that stops at the first `None` observes.  Fuel-driven; each `some`
step consumes at least one raw character, so `raw.length` fuel suffices. -/
def escape_chars_go : Nat → List Char → List String
  | 0, _ => []
  | fuel + 1, raw =>
    match escape_chars_step raw with
    | (none, _) => []
    | (some s, raw2) => s :: escape_chars_go fuel raw2

def escape_chars (raw : List Char) : List String :=
  escape_chars_go raw.length raw

/-- The `line_count` map (lex.rs:230-238) with its counter made explicit:
note that the counter is bumped before the newline item is tagged. -/
def line_count_go : Nat → List String → List CharLine
  | _, [] => []
  | n, ch :: rest =>
    if ch = String.mk ['\n'] then
      CharLine.mk ch (n + 1) :: line_count_go (n + 1) rest
    else
      CharLine.mk ch n :: line_count_go n rest

def line_count (chars : List String) : List CharLine :=
  line_count_go 1 chars

/-- Message of the error token for an unquoted closing brace at depth zero. -/
def unexpected_close_msg : String := "unexpected " ++ String.mk ['\'', '}', '\'']

/-- Message of the error token for unmatched opening braces at end of input. -/
def unexpected_eof_msg : String :=
  "unexpected end of file, expecting " ++ String.mk ['\'', '}', '\'']

def closeErr (ln : Nat) : NgxToken :=
  NgxToken.mk "" ln false (some (ParseError.mk unexpected_close_msg ln))

def eofErr (ln : Nat) : NgxToken :=
  NgxToken.mk "" ln false (some (ParseError.mk unexpected_eof_msg ln))

/-- Depth contribution of one token in `balance_braces` (lex.rs:45-49). -/
def braceDelta (t : NgxToken) : Int :=
  if t.value = String.mk ['}'] ∧ t.is_quoted = false then -1
  else if t.value = String.mk ['{'] ∧ t.is_quoted = false then 1
  else 0

/-- Net brace depth after a token sequence. -/
def depthAfter (ts : List NgxToken) : Int := (ts.map braceDelta).sum

/-- The loop of `balance_braces` (lex.rs:37-78): `acc` is `balanced_tokens`,
`depth` the running depth, `ln` the `line` variable. -/
def balance_braces_go : List NgxToken → List NgxToken → Int → Nat → List NgxToken
  | [], acc, depth, ln => if 0 < depth then acc ++ [eofErr ln] else acc
  | t :: rest, acc, depth, _ =>
    if depth + braceDelta t < 0 then [closeErr t.line]
    else balance_braces_go rest (acc ++ [t]) (depth + braceDelta t) t.line

def balance_braces (tokens : List NgxToken) : List NgxToken :=
  balance_braces_go tokens [] 0 0

/-- Rust `char::ends_with(c)` on a string, as used on the token buffer. -/
def str_ends_with_char (s : String) (c : Char) : Bool :=
  match s.data.getLast? with
  | some d => d == c
  | none => false

/-- Rust `char::is_whitespace`: the Unicode White_Space property, i.e. the
25 code points U+0009-U+000D, U+0020, U+0085, U+00A0, U+1680,
U+2000-U+200A, U+2028, U+2029, U+202F, U+205F and U+3000. -/
def rust_is_whitespace (c : Char) : Bool :=
  c.val = 0x09 || c.val = 0x0A || c.val = 0x0B || c.val = 0x0C || c.val = 0x0D
  || c.val = 0x20 || c.val = 0x85 || c.val = 0xA0 || c.val = 0x1680
  || (0x2000 ≤ c.val && c.val ≤ 0x200A) || c.val = 0x2028 || c.val = 0x2029
  || c.val = 0x202F || c.val = 0x205F || c.val = 0x3000

/-- Rust `str::trim().is_empty()` as used to detect whitespace items:
`trim` strips `char::is_whitespace` characters from both ends, so the
trimmed string is empty exactly when every character is White_Space. -/
def isWsStr (s : String) : Bool := s.data.all (fun c => rust_is_whitespace c)

/-- State of the character stream feeding the tokenizer: the remaining raw
characters (behind `escape_chars`' own peekable iterator), the `line_count`
counter, and the cache of the `Peekable` wrapped around the stream inside
`tokenize` (lex.rs:85). -/
structure StreamState where
  raw : List Char
  line : Nat
  peeked : Option (Option CharLine)
deriving DecidableEq, Repr

/-- One `next()` of `line_count(escape_chars(...))`: `Iterator::map` passes
a `None` through untouched and otherwise updates the line counter before
tagging (only called with an empty peek cache). -/
def inner_next (s : StreamState) : Option CharLine × StreamState :=
  match escape_chars_step s.raw with
  | (none, raw2) => (none, StreamState.mk raw2 s.line s.peeked)
  | (some ch, raw2) =>
    if ch = String.mk ['\n'] then
      (some (CharLine.mk ch (s.line + 1)), StreamState.mk raw2 (s.line + 1) s.peeked)
    else
      (some (CharLine.mk ch s.line), StreamState.mk raw2 s.line s.peeked)

/-- `Peekable::next` on the annotated stream. -/
def stream_next (s : StreamState) : Option CharLine × StreamState :=
  match s.peeked with
  | some v => (v, StreamState.mk s.raw s.line none)
  | none => inner_next s

/-- `Peekable::peek` on the annotated stream (the result is cached, a `None`
included). -/
def stream_peek (s : StreamState) : Option CharLine × StreamState :=
  match s.peeked with
  | some v => (v, s)
  | none =>
    match inner_next s with
    | (v, s2) => (v, StreamState.mk s2.raw s2.line (some v))

def wordTok (v : String) (ln : Nat) : NgxToken := NgxToken.mk v ln false none

/-- Flush the pending token buffer if non-empty (the guarded pushes at
lex.rs:91-99, 183-192, 208-215). -/
def flushTok (tok : String) (tln : Nat) (acc : List NgxToken) : List NgxToken :=
  if tok = "" then acc else acc ++ [wordTok tok tln]

/-- The whitespace-coalescing loop (lex.rs:101-106): peek, stop on a
non-whitespace item or on `None` (which the peekable caches), otherwise
consume and repeat. -/
def skip_ws : Nat → StreamState → StreamState
  | 0, s => s
  | fuel + 1, s =>
    match stream_peek s with
    | (none, s2) => s2
    | (some cl, s2) =>
      if isWsStr cl.char then skip_ws fuel (stream_next s2).2 else s2

/-- The comment loop (lex.rs:115-121): append items until a `"\n"` item or
the end of the pass. -/
def scan_comment : Nat → StreamState → String → String × StreamState
  | 0, s, tok => (tok, s)
  | fuel + 1, s, tok =>
    match stream_next s with
    | (none, s2) => (tok, s2)
    | (some cl, s2) =>
      if cl.char = String.mk ['\n'] then (tok, s2)
      else scan_comment fuel s2 (tok ++ cl.char)

/-- The parameter-expansion loop (lex.rs:140-147): append items while the
buffer does not yet end with `'}'` and the item is not whitespace; on the
first item violating that, stop and hand it back as the re-assigned current
item (`some`); `none` means the pass ended and the current item stays the
original `'{'`. -/
def scan_dollar : Nat → StreamState → String → String × Option CharLine × StreamState
  | 0, s, tok => (tok, none, s)
  | fuel + 1, s, tok =>
    match stream_next s with
    | (none, s2) => (tok, none, s2)
    | (some ncl, s2) =>
      if str_ends_with_char tok '}' = false ∧ isWsStr ncl.char = false then
        scan_dollar fuel s2 (tok ++ ncl.char)
      else (tok, some ncl, s2)

/-- The quoted-string loop (lex.rs:159-169): stop at the delimiter item; a
two-character backslash-delimiter item collapses to the delimiter; any other
item is appended verbatim. -/
def scan_quote : Nat → StreamState → String → String → String × StreamState
  | 0, s, _, tok => (tok, s)
  | fuel + 1, s, q, tok =>
    match stream_next s with
    | (none, s2) => (tok, s2)
    | (some icl, s2) =>
      if icl.char = q then (tok, s2)
      else if icl.char = String.mk ['\\'] ++ q then scan_quote fuel s2 q (tok ++ q)
      else scan_quote fuel s2 q (tok ++ icl.char)

/-- The tail of one iteration of the tokenizer loop after the whitespace and
comment branches (lex.rs:137-205): the parameter-expansion accommodation
(which may re-assign the current item), then the quote, structural-character
and ordinary-character branches.  Returns the stream state, pending buffer
and output list with which the loop continues. -/
def after_dollar (fuel : Nat) (s1 : StreamState) (cl : CharLine) (tok : String)
    (tln1 : Nat) (acc : List NgxToken) : StreamState × String × List NgxToken :=
  match (if tok ≠ "" ∧ str_ends_with_char tok '$' = true ∧ cl.char = String.mk ['{']
         then scan_dollar fuel s1 (tok ++ cl.char)
         else (tok, some cl, s1)) with
  | (tok2, clOpt, s2) =>
    match clOpt.getD cl with
    | cl2 =>
      if cl2.char = String.mk ['"'] ∨ cl2.char = String.mk ['\''] then
        if tok2 = "" then
          match scan_quote fuel s2 cl2.char tok2 with
          | (v, s3) => (s3, "", acc ++ [NgxToken.mk v tln1 true none])
        else (s2, tok2 ++ cl2.char, acc)
      else if cl2.char = String.mk ['{'] ∨ cl2.char = String.mk ['}']
            ∨ cl2.char = String.mk [';'] then
        (s2, "", flushTok tok2 tln1 acc ++ [NgxToken.mk cl2.char cl2.line false none])
      else (s2, tok2 ++ cl2.char, acc)

/-- The main tokenizer loop (lex.rs:87-206 plus the final flush at 208-215).
`tok` is the pending buffer, `tln` its start line, `acc` the output so far. -/
def tokenize_loop : Nat → StreamState → String → Nat → List NgxToken → List NgxToken
  | 0, _, tok, tln, acc => flushTok tok tln acc
  | fuel + 1, s, tok, tln, acc =>
    match stream_next s with
    | (none, _) => flushTok tok tln acc
    | (some cl, s1) =>
      if isWsStr cl.char then
        tokenize_loop fuel (skip_ws fuel s1) "" tln (flushTok tok tln acc)
      else if tok = "" ∧ cl.char = String.mk ['#'] then
        match scan_comment fuel s1 (tok ++ cl.char) with
        | (v, s2) => tokenize_loop fuel s2 "" tln (acc ++ [wordTok v cl.line])
      else
        match after_dollar fuel s1 cl tok (if tok = "" then cl.line else tln) acc with
        | (s2, tok2, acc2) =>
          tokenize_loop fuel s2 tok2 (if tok = "" then cl.line else tln) acc2

/-- `tokenize` (lex.rs:80-218).  The fuel `2 * input.length + 4` strictly
dominates the number of stream polls the Rust loop can make on this input. -/
def tokenize (input : List Char) : List NgxToken :=
  tokenize_loop (2 * input.length + 4) (StreamState.mk input 1 none) "" 1 []

/-- `lex` (lex.rs:33-35). -/
def lex (input : List Char) : List NgxToken :=
  balance_braces (tokenize input)

/-- A sanity check of the embedding against the structural-nesting example of
the test fixtures: `events { worker_connections 1024; }`. -/
theorem lex_simple_sanity :
    lex ("events ".toList ++ ['{'] ++ " worker_connections 1024; ".toList ++ ['}'])
      = [wordTok "events" 1, wordTok (String.mk ['{']) 1,
         wordTok "worker_connections" 1, wordTok "1024" 1,
         wordTok (String.mk [';']) 1, wordTok (String.mk ['}']) 1] := by
  decide

/-- Claim C1, counterexample: on input `a\<newline>b` the `escape_chars`
iterator yields only `"a"` and then ends the pass; the characters after the
backslash-newline pair are not forwarded, so the output is not the `["a",
"b"]` the claim predicts. -/
theorem escape_chars_line_continuation_cex :
    escape_chars ['a', '\\', '\n', 'b'] = [String.mk ['a']]
    ∧ escape_chars ['a', '\\', '\n', 'b'] ≠ [String.mk ['a'], String.mk ['b']] := by
  decide

/-- Claim C1, amended: when `escape_chars` meets a backslash immediately
followed by a newline it consumes only the backslash and returns `None`,
ending the current iteration pass (no further character, the newline
included, is produced in that pass); the newline is left in the input, and a
consumer that polls the closure again resumes with the newline, which is
then forwarded rather than dropped. -/
theorem escape_chars_line_continuation :
    ∀ rest : List Char,
      escape_chars_step ('\\' :: '\n' :: rest) = (none, '\n' :: rest)
      ∧ escape_chars ('\\' :: '\n' :: rest) = []
      ∧ escape_chars_step ('\n' :: rest) = (some (String.mk ['\n']), rest) := by
  intro rest
  refine ⟨by simp [escape_chars_step], ?_, by simp [escape_chars_step]⟩
  simp [escape_chars, escape_chars_go, escape_chars_step]

theorem line_count_go_length :
    ∀ (cs : List String) (n : Nat), (line_count_go n cs).length = cs.length := by
  intro cs
  induction cs with
  | nil => intro n; simp [line_count_go]
  | cons ch rest ih =>
    intro n
    by_cases h : ch = String.mk ['\n'] <;> simp [line_count_go, h, ih]

theorem line_count_go_line :
    ∀ (cs : List String) (n i : Nat), i < cs.length →
      ((line_count_go n cs)[i]?).map CharLine.line
        = some (n + ((cs.take (i + 1)).countP (fun s => s == String.mk ['\n']))) := by
  intro cs
  induction cs with
  | nil => intro n i h; simp at h
  | cons ch rest ih =>
    intro n i h
    by_cases hch : ch = String.mk ['\n']
    · cases i with
      | zero => simp [line_count_go, hch, List.countP_cons]
      | succ j =>
        have hj : j < rest.length := by simpa using h
        have hrec := ih (n + 1) j hj
        simp only [line_count_go, if_pos hch, List.getElem?_cons_succ,
          List.take_succ_cons, List.countP_cons, hrec, Option.some.injEq]
        simp [hch]
        omega
    · cases i with
      | zero => simp [line_count_go, hch, List.countP_cons]
      | succ j =>
        have hj : j < rest.length := by simpa using h
        have hrec := ih n j hj
        simp only [line_count_go, if_neg hch, List.getElem?_cons_succ,
          List.take_succ_cons, List.countP_cons, hrec, Option.some.injEq]
        simp [beq_iff_eq, hch]

/-- Claim C6, counterexample: in `a<newline>b` the newline character is
tagged with line 2 (the line it begins), not with line 1 (the line it
terminates) as the claim states. -/
theorem line_count_tagging_cex :
    line_count [String.mk ['a'], String.mk ['\n'], String.mk ['b']]
      = [CharLine.mk (String.mk ['a']) 1, CharLine.mk (String.mk ['\n']) 2,
         CharLine.mk (String.mk ['b']) 2]
    ∧ ((line_count [String.mk ['a'], String.mk ['\n'], String.mk ['b']])[1]?).map
        CharLine.line ≠ some 1 := by
  decide

/-- Claim C6, amended: `line_count` starts its counter at 1, but the counter
is incremented before a newline item is tagged: every character, a newline
included, is tagged with 1 plus the number of newlines among the characters
up to and including itself, so a newline carries the number of the line it
begins (the next line), not of the line it terminates. -/
theorem line_count_tagging :
    ∀ (cs : List String) (i : Nat), i < cs.length →
      (line_count cs).length = cs.length
      ∧ ((line_count cs)[i]?).map CharLine.line
          = some (1 + ((cs.take (i + 1)).countP (fun s => s == String.mk ['\n']))) := by
  intro cs i h
  exact ⟨line_count_go_length cs 1, line_count_go_line cs 1 i h⟩

/-- Witness for `line_count_tagging` at a concrete input: the newline in
`a<newline>b` is tagged with line 2. -/
theorem line_count_tagging_witness :
    ((line_count [String.mk ['a'], String.mk ['\n'], String.mk ['b']])[1]?).map
        CharLine.line = some 2 :=
  ((line_count_tagging [String.mk ['a'], String.mk ['\n'], String.mk ['b']] 1
    (by decide)).2).trans (by decide)

theorem escape_chars_step_ne_cr :
    ∀ raw : List Char, (escape_chars_step raw).1 ≠ some (String.mk ['\r']) := by
  intro raw
  induction raw with
  | nil => simp [escape_chars_step]
  | cons c rest ih =>
    by_cases hb : c = '\\'
    · subst hb
      cases rest with
      | nil => simp [escape_chars_step, String.ext_iff]
      | cons n rest2 =>
        by_cases hn : n = '\n' <;> simp [escape_chars_step, hn, String.ext_iff]
    · by_cases hr : c = '\r'
      · subst hr; simpa [escape_chars_step] using ih
      · simp [escape_chars_step, hb, hr, String.ext_iff]

theorem escape_chars_go_ne_cr :
    ∀ (fuel : Nat) (raw : List Char), String.mk ['\r'] ∉ escape_chars_go fuel raw := by
  intro fuel
  induction fuel with
  | zero => intro raw; simp [escape_chars_go]
  | succ fuel ih =>
    intro raw
    rcases hstep : escape_chars_step raw with ⟨o, raw2⟩
    cases o with
    | none => simp [escape_chars_go, hstep]
    | some s =>
      have hne : s ≠ String.mk ['\r'] := by
        intro hs
        exact escape_chars_step_ne_cr raw (by rw [hstep, hs])
      simp [escape_chars_go, hstep, List.mem_cons, hne.symm]
      intro hmem
      exact absurd hmem (by simpa using ih raw2)

/-- Claim C7, counterexample: on input `a\<CR>b` the carriage return right
after the backslash is not dropped; it is forwarded inside the two-character
backslash pair, so a carriage return does appear in the normalizer output. -/
theorem escape_chars_carriage_return_cex :
    escape_chars ['a', '\\', '\r', 'b']
      = [String.mk ['a'], String.mk ['\\', '\r'], String.mk ['b']]
    ∧ '\r' ∈ (String.join (escape_chars ['a', '\\', '\r', 'b'])).data := by
  decide

/-- Claim C7, amended: a carriage return standing on its own is dropped by
`escape_chars` (the single-character item `"\r"` never occurs in its
output), but a carriage return immediately following a backslash is not
dropped: the pair is forwarded as the two-character item `"\<CR>"`. -/
theorem escape_chars_carriage_return :
    ∀ (input rest : List Char),
      String.mk ['\r'] ∉ escape_chars input
      ∧ escape_chars_step ('\\' :: '\r' :: rest)
          = (some (String.mk ['\\', '\r']), rest)
      ∧ escape_chars_step ('\r' :: rest) = escape_chars_step rest := by
  intro input rest
  refine ⟨escape_chars_go_ne_cr input.length input, ?_, ?_⟩
  · simp [escape_chars_step]
  · simp [escape_chars_step]

/-- Witness for `escape_chars_carriage_return` at a concrete input. -/
theorem escape_chars_carriage_return_witness :
    String.mk ['\r'] ∉ escape_chars ['\r', 'a'] :=
  (escape_chars_carriage_return ['\r', 'a'] []).1

theorem depthAfter_nil : depthAfter [] = 0 := rfl

theorem depthAfter_cons (t : NgxToken) (l : List NgxToken) :
    depthAfter (t :: l) = braceDelta t + depthAfter l := by
  simp [depthAfter]

theorem balance_braces_go_id :
    ∀ (ts acc : List NgxToken) (d : Int) (ln : Nat),
      0 ≤ d →
      (∀ i : Nat, i ≤ ts.length → 0 ≤ d + depthAfter (ts.take i)) →
      d + depthAfter ts = 0 →
      balance_braces_go ts acc d ln = acc ++ ts := by
  intro ts
  induction ts with
  | nil =>
    intro acc d ln hd hpre hzero
    have hz : d = 0 := by
      have := hzero; rw [depthAfter_nil] at this; omega
    simp [balance_braces_go, hz]
  | cons t rest ih =>
    intro acc d ln hd hpre hzero
    have h1 : 0 ≤ d + braceDelta t := by
      have := hpre 1 (by simp)
      simpa [List.take_succ_cons, depthAfter_cons, depthAfter_nil] using this
    have hneg : ¬ d + braceDelta t < 0 := by omega
    rw [balance_braces_go, if_neg hneg,
      ih (acc ++ [t]) (d + braceDelta t) t.line (by omega) ?hpre ?hzero]
    · simp
    case hpre =>
      intro i hi
      have := hpre (i + 1) (by simpa using hi)
      rw [List.take_succ_cons, depthAfter_cons] at this
      omega
    case hzero =>
      rw [depthAfter_cons] at hzero
      omega

theorem balance_braces_go_neg :
    ∀ (p acc : List NgxToken) (d : Int) (ln : Nat) (t : NgxToken) (rest : List NgxToken),
      0 ≤ d →
      (∀ i : Nat, i ≤ p.length → 0 ≤ d + depthAfter (p.take i)) →
      d + depthAfter (p ++ [t]) < 0 →
      balance_braces_go (p ++ t :: rest) acc d ln = [closeErr t.line] := by
  intro p
  induction p with
  | nil =>
    intro acc d ln t rest hd hpre hneg
    have ht : d + braceDelta t < 0 := by
      rw [List.nil_append, depthAfter_cons, depthAfter_nil] at hneg
      omega
    rw [List.nil_append, balance_braces_go, if_pos ht]
  | cons q p' ih =>
    intro acc d ln t rest hd hpre hneg
    have h1 : 0 ≤ d + braceDelta q := by
      have := hpre 1 (by simp)
      simpa [List.take_succ_cons, depthAfter_cons, depthAfter_nil] using this
    have hq : ¬ d + braceDelta q < 0 := by omega
    rw [List.cons_append, balance_braces_go, if_neg hq]
    refine ih (acc ++ [q]) (d + braceDelta q) q.line t rest (by omega) ?_ ?_
    · intro i hi
      have := hpre (i + 1) (by simpa using hi)
      rw [List.take_succ_cons, depthAfter_cons] at this
      omega
    · rw [List.cons_append, depthAfter_cons] at hneg
      omega

theorem balance_braces_go_pos :
    ∀ (ts acc : List NgxToken) (d : Int) (ln : Nat) (h : ts ≠ []),
      0 ≤ d →
      (∀ i : Nat, i ≤ ts.length → 0 ≤ d + depthAfter (ts.take i)) →
      0 < d + depthAfter ts →
      balance_braces_go ts acc d ln = acc ++ ts ++ [eofErr ((ts.getLast h).line)] := by
  intro ts
  induction ts with
  | nil => intro acc d ln h; exact absurd rfl h
  | cons t rest ih =>
    intro acc d ln h hd hpre hpos
    have h1 : 0 ≤ d + braceDelta t := by
      have := hpre 1 (by simp)
      simpa [List.take_succ_cons, depthAfter_cons, depthAfter_nil] using this
    have hneg : ¬ d + braceDelta t < 0 := by omega
    cases rest with
    | nil =>
      have hp : 0 < d + braceDelta t := by
        rw [depthAfter_cons, depthAfter_nil] at hpos
        omega
      rw [balance_braces_go, if_neg hneg, balance_braces_go, if_pos hp]
      simp
    | cons r rest' =>
      rw [balance_braces_go, if_neg hneg,
        ih (acc ++ [t]) (d + braceDelta t) t.line (by simp) (by omega) ?hpre ?hpos]
      · simp [List.getLast_cons]
      case hpre =>
        intro i hi
        have := hpre (i + 1) (by simpa using hi)
        rw [List.take_succ_cons, depthAfter_cons] at this
        omega
      case hpos =>
        rw [depthAfter_cons] at hpos
        omega

/-- Claim C3: if the running depth of unquoted braces stays non-negative
over a prefix `p` and then goes negative at the token `t`, `balance_braces`
discards everything and returns exactly one token carrying the error
message `unexpected '}'` with the line of the offending token. -/
theorem balance_braces_unexpected_close :
    ∀ (p rest : List NgxToken) (t : NgxToken),
      (∀ i : Nat, i ≤ p.length → 0 ≤ depthAfter (p.take i)) →
      depthAfter (p ++ [t]) < 0 →
      balance_braces (p ++ t :: rest) = [closeErr t.line] := by
  intro p rest t hpre hneg
  refine balance_braces_go_neg p [] 0 0 t rest le_rfl ?_ ?_
  · intro i hi; simpa using hpre i hi
  · simpa using hneg

/-- Witness for `balance_braces_unexpected_close`: a lone unquoted `}` on
line 5 followed by another token collapses to the single error token. -/
theorem balance_braces_unexpected_close_witness :
    (∀ i : Nat, i ≤ ([] : List NgxToken).length
      → 0 ≤ depthAfter (([] : List NgxToken).take i))
    ∧ depthAfter ([] ++ [wordTok (String.mk ['}']) 5]) < 0
    ∧ balance_braces ([] ++ wordTok (String.mk ['}']) 5 :: [wordTok "x" 6])
        = [closeErr 5] :=
  ⟨by decide, by decide,
    balance_braces_unexpected_close [] [wordTok "x" 6] (wordTok (String.mk ['}']) 5)
      (by decide) (by decide)⟩

/-- Claim C4: if the running depth never goes negative but is still positive
after the last token, `balance_braces` returns the sequence unchanged with
exactly one appended error token carrying the message `unexpected end of
file, expecting '}'` and the line of the last token processed. -/
theorem balance_braces_unterminated :
    ∀ (ts : List NgxToken) (h : ts ≠ []),
      (∀ i : Nat, i ≤ ts.length → 0 ≤ depthAfter (ts.take i)) →
      0 < depthAfter ts →
      balance_braces ts = ts ++ [eofErr ((ts.getLast h).line)] := by
  intro ts h hpre hpos
  have := balance_braces_go_pos ts [] 0 0 h le_rfl
    (fun i hi => by simpa using hpre i hi) (by simpa using hpos)
  simpa using this

/-- Witness for `balance_braces_unterminated`: a lone unquoted `{` on line 2
gets the end-of-file error token appended, tagged with line 2. -/
theorem balance_braces_unterminated_witness :
    (∀ i : Nat, i ≤ [wordTok (String.mk ['{']) 2].length
      → 0 ≤ depthAfter ([wordTok (String.mk ['{']) 2].take i))
    ∧ 0 < depthAfter [wordTok (String.mk ['{']) 2]
    ∧ balance_braces [wordTok (String.mk ['{']) 2]
        = [wordTok (String.mk ['{']) 2] ++ [eofErr 2] :=
  ⟨by decide, by decide,
    balance_braces_unterminated [wordTok (String.mk ['{']) 2] (by decide)
      (by decide) (by decide)⟩

theorem str_append_left_ne (s t : String) (h : s ≠ "") : s ++ t ≠ "" := by
  intro he
  apply h
  apply String.ext
  have hd := congrArg String.data he
  rw [String.data_append] at hd
  have he2 : ("" : String).data = [] := rfl
  rw [he2] at hd ⊢
  exact (List.append_eq_nil.mp hd).1

theorem str_append_right_ne (s t : String) (h : t ≠ "") : s ++ t ≠ "" := by
  intro he
  apply h
  apply String.ext
  have hd := congrArg String.data he
  rw [String.data_append] at hd
  have he2 : ("" : String).data = [] := rfl
  rw [he2] at hd ⊢
  exact (List.append_eq_nil.mp hd).2

theorem str_mk_single_ne (c : Char) : String.mk [c] ≠ "" := by
  intro he
  have hd := congrArg String.data he
  exact absurd (show ([c] : List Char) = [] from hd) (by simp)

theorem scan_comment_ne_empty :
    ∀ (fuel : Nat) (s : StreamState) (tok : String),
      tok ≠ "" → (scan_comment fuel s tok).1 ≠ "" := by
  intro fuel
  induction fuel with
  | zero => intro s tok h; simpa [scan_comment] using h
  | succ fuel ih =>
    intro s tok h
    rw [scan_comment]
    rcases hsn : stream_next s with ⟨o, s2⟩
    cases o with
    | none => simpa using h
    | some cl =>
      by_cases hnl : cl.char = String.mk ['\n']
      · simpa [hnl] using h
      · simpa [hnl] using ih s2 (tok ++ cl.char) (str_append_left_ne tok cl.char h)

theorem mem_flushTok {u : NgxToken} {tok : String} {tln : Nat} {acc : List NgxToken}
    (h : u ∈ flushTok tok tln acc) :
    u ∈ acc ∨ (tok ≠ "" ∧ u = wordTok tok tln) := by
  unfold flushTok at h
  split at h
  · exact Or.inl h
  · rcases List.mem_append.mp h with h1 | h1
    · exact Or.inl h1
    · right
      exact ⟨by assumption, by simpa using h1⟩

theorem after_dollar_acc_inv (P : NgxToken → Prop)
    (hword : ∀ v ln, v ≠ "" → P (wordTok v ln))
    (hquoted : ∀ v ln, P (NgxToken.mk v ln true none)) :
    ∀ (fuel : Nat) (s1 : StreamState) (cl : CharLine) (tok : String) (tln1 : Nat)
      (acc : List NgxToken), (∀ u ∈ acc, P u) →
      ∀ u ∈ (after_dollar fuel s1 cl tok tln1 acc).2.2, P u := by
  intro fuel s1 cl tok tln1 acc hacc u hu
  rcases hd : (if tok ≠ "" ∧ str_ends_with_char tok '$' = true ∧ cl.char = String.mk ['{']
               then scan_dollar fuel s1 (tok ++ cl.char)
               else (tok, some cl, s1)) with ⟨tok2, clOpt, s2⟩
  rw [after_dollar, hd] at hu
  dsimp only at hu
  split at hu
  · split at hu
    · rcases hsq : scan_quote fuel s2 (clOpt.getD cl).char tok2 with ⟨v, s3⟩
      rw [hsq] at hu
      dsimp only at hu
      rcases List.mem_append.mp hu with h | h
      · exact hacc u h
      · rw [List.mem_singleton] at h
        rw [h]
        exact hquoted v tln1
    · exact hacc u hu
  · split at hu
    · rcases List.mem_append.mp hu with h | h
      · rcases mem_flushTok h with h1 | ⟨hne, rfl⟩
        · exact hacc u h1
        · exact hword tok2 tln1 hne
      · rw [List.mem_singleton] at h
        rw [h]
        refine hword (clOpt.getD cl).char (clOpt.getD cl).line ?_
        next hstruct =>
        rcases hstruct with h2 | h2 | h2 <;> rw [h2] <;> exact str_mk_single_ne _
    · exact hacc u hu

theorem tokenize_loop_inv (P : NgxToken → Prop)
    (hword : ∀ v ln, v ≠ "" → P (wordTok v ln))
    (hquoted : ∀ v ln, P (NgxToken.mk v ln true none)) :
    ∀ (fuel : Nat) (s : StreamState) (tok : String) (tln : Nat) (acc : List NgxToken),
      (∀ u ∈ acc, P u) → ∀ u ∈ tokenize_loop fuel s tok tln acc, P u := by
  intro fuel
  induction fuel with
  | zero =>
    intro s tok tln acc hacc u hu
    rw [tokenize_loop] at hu
    rcases mem_flushTok hu with h | ⟨hne, rfl⟩
    · exact hacc u h
    · exact hword tok tln hne
  | succ fuel ih =>
    intro s tok tln acc hacc u hu
    rw [tokenize_loop] at hu
    rcases hsn : stream_next s with ⟨o, s1⟩
    rw [hsn] at hu
    cases o with
    | none =>
      dsimp only at hu
      rcases mem_flushTok hu with h | ⟨hne, rfl⟩
      · exact hacc u h
      · exact hword tok tln hne
    | some cl =>
      dsimp only at hu
      split at hu
      · refine ih _ _ _ _ ?_ u hu
        intro v hv
        rcases mem_flushTok hv with h | ⟨hne, rfl⟩
        · exact hacc v h
        · exact hword tok tln hne
      · split at hu
        · next hcond =>
          rcases hsc : scan_comment fuel s1 (tok ++ cl.char) with ⟨v, s2⟩
          rw [hsc] at hu
          dsimp only at hu
          refine ih _ _ _ _ ?_ u hu
          intro w hw
          rcases List.mem_append.mp hw with h | h
          · exact hacc w h
          · rw [List.mem_singleton] at h
            rw [h]
            refine hword v cl.line ?_
            have hne : tok ++ cl.char ≠ "" :=
              str_append_right_ne tok cl.char (hcond.2 ▸ str_mk_single_ne '#')
            have := scan_comment_ne_empty fuel s1 (tok ++ cl.char) hne
            rw [hsc] at this
            exact this
        · rcases had : after_dollar fuel s1 cl tok (if tok = "" then cl.line else tln) acc
            with ⟨s2, tok2, acc2⟩
          rw [had] at hu
          dsimp only at hu
          refine ih _ _ _ _ ?_ u hu
          intro w hw
          refine after_dollar_acc_inv P hword hquoted fuel s1 cl tok
            (if tok = "" then cl.line else tln) acc hacc w ?_
          rw [had]
          exact hw

/-- Claim C5: on a token sequence whose running depth of unquoted braces
never goes negative and ends at exactly zero, `balance_braces` is the
identity. -/
theorem balance_braces_balanced_id :
    ∀ ts : List NgxToken,
      (∀ i : Nat, i ≤ ts.length → 0 ≤ depthAfter (ts.take i)) →
      depthAfter ts = 0 →
      balance_braces ts = ts := by
  intro ts hpre hz
  have := balance_braces_go_id ts [] 0 0 le_rfl
    (fun i hi => by simpa using hpre i hi) (by simpa using hz)
  simpa using this

theorem balance_braces_go_inv (P : NgxToken → Prop)
    (hclose : ∀ ln, P (closeErr ln)) (heof : ∀ ln, P (eofErr ln)) :
    ∀ (ts acc : List NgxToken) (d : Int) (ln : Nat),
      (∀ u ∈ acc, P u) → (∀ u ∈ ts, P u) →
      ∀ u ∈ balance_braces_go ts acc d ln, P u := by
  intro ts
  induction ts with
  | nil =>
    intro acc d ln hacc hts u hu
    rw [balance_braces_go] at hu
    split at hu
    · rcases List.mem_append.mp hu with h | h
      · exact hacc u h
      · rw [List.mem_singleton] at h
        rw [h]
        exact heof ln
    · exact hacc u hu
  | cons t rest ih =>
    intro acc d ln hacc hts u hu
    rw [balance_braces_go] at hu
    split at hu
    · rw [List.mem_singleton] at hu
      rw [hu]
      exact hclose t.line
    · refine ih (acc ++ [t]) _ t.line ?_ (fun v hv => hts v (List.mem_cons_of_mem t hv)) u hu
      intro v hv
      rcases List.mem_append.mp hv with h | h
      · exact hacc v h
      · rw [List.mem_singleton] at h
        rw [h]
        exact hts t (List.mem_cons_self t rest)

theorem balance_braces_go_dropLast :
    ∀ (ts acc : List NgxToken) (d : Int) (ln : Nat),
      (∀ u ∈ acc, u.error = none) → (∀ u ∈ ts, u.error = none) →
      ∀ u ∈ (balance_braces_go ts acc d ln).dropLast, u.error = none := by
  intro ts
  induction ts with
  | nil =>
    intro acc d ln hacc hts u hu
    rw [balance_braces_go] at hu
    split at hu
    · rw [List.dropLast_concat] at hu
      exact hacc u hu
    · exact hacc u (List.dropLast_subset _ hu)
  | cons t rest ih =>
    intro acc d ln hacc hts u hu
    rw [balance_braces_go] at hu
    split at hu
    · simp at hu
    · refine ih (acc ++ [t]) _ t.line ?_ (fun v hv => hts v (List.mem_cons_of_mem t hv)) u hu
      intro v hv
      rcases List.mem_append.mp hv with h | h
      · exact hacc v h
      · rw [List.mem_singleton] at h
        rw [h]
        exact hts t (List.mem_cons_self t rest)

theorem tokenize_all_error_none :
    ∀ (input : List Char), ∀ u ∈ tokenize input, u.error = none := by
  intro input u hu
  refine tokenize_loop_inv (fun t => t.error = none) (fun v ln _ => rfl)
    (fun v ln => rfl) _ _ "" 1 [] ?_ u hu
  intro v hv
  simp at hv

theorem countP_le_one_of_dropLast :
    ∀ l : List NgxToken, (∀ u ∈ l.dropLast, u.error = none) →
      l.countP (fun u => u.error.isSome) ≤ 1 := by
  intro l h
  rcases List.eq_nil_or_concat l with rfl | ⟨l2, a, rfl⟩
  · simp
  · rw [List.concat_eq_append] at h ⊢
    rw [List.countP_append]
    have h0 : l2.countP (fun u => u.error.isSome) = 0 := by
      rw [List.countP_eq_zero]
      intro u hu
      have := h u (by rwa [List.dropLast_concat])
      simp [this]
    rw [h0]
    simp [List.countP_cons]
    split <;> omega

/-- Claim C10: in the sequence returned by `lex` every token except possibly
the last carries no error, hence there is at most one error-carrying token
and, when present, it is the last one. -/
theorem lex_single_trailing_error :
    ∀ (input : List Char),
      (∀ u ∈ (lex input).dropLast, u.error = none)
      ∧ (lex input).countP (fun u => u.error.isSome) ≤ 1 := by
  intro input
  have hdrop : ∀ u ∈ (lex input).dropLast, u.error = none := by
    intro u hu
    refine balance_braces_go_dropLast (tokenize input) [] 0 0 ?_ ?_ u hu
    · intro v hv; simp at hv
    · exact tokenize_all_error_none input
  exact ⟨hdrop, countP_le_one_of_dropLast _ hdrop⟩

/-- Witness for `lex_single_trailing_error` on the input `a;`. -/
theorem lex_single_trailing_error_witness :
    (wordTok "a" 1 ∈ (lex ['a', ';']).dropLast) ∧ (wordTok "a" 1).error = none :=
  ⟨by decide, (lex_single_trailing_error ['a', ';']).1 (wordTok "a" 1) (by decide)⟩

/-- Claim C2, counterexample: the empty quoted string input `""` lexes to a
token whose value is empty, which is not the error sentinel (it carries no
error), contradicting the claimed invariant. -/
theorem lex_empty_value_tokens_cex :
    lex ['"', '"'] = [NgxToken.mk "" 1 true none]
    ∧ ∃ u ∈ lex ['"', '"'], u.value = "" ∧ u.error = none := by
  decide

/-- Claim C2, amended: in the sequence returned by `lex`, every token with
an empty value is either a quoted-string token (an empty quoted string such
as `""` produces one) or the error sentinel; unquoted non-error tokens never
have an empty value. -/
theorem lex_empty_value_tokens :
    ∀ (input : List Char), ∀ u ∈ lex input,
      u.value = "" → u.is_quoted = true ∨ u.error ≠ none := by
  intro input u hu hv
  refine balance_braces_go_inv
    (fun t => t.value = "" → t.is_quoted = true ∨ t.error ≠ none)
    (fun ln _ => Or.inr (by simp [closeErr])) (fun ln _ => Or.inr (by simp [eofErr]))
    (tokenize input) [] 0 0 ?_ ?_ u hu hv
  · intro v hv2; simp at hv2
  · intro v hv2
    refine tokenize_loop_inv
      (fun t : NgxToken => t.value = "" → t.is_quoted = true ∨ t.error ≠ none)
      ?_ ?_ _ _ "" 1 [] ?_ v hv2
    · intro w ln hw hempty
      exact absurd hempty hw
    · intro w ln _
      exact Or.inl rfl
    · intro w hw; simp at hw

/-- Witness for `lex_empty_value_tokens` at the empty quoted string. -/
theorem lex_empty_value_tokens_witness :
    (NgxToken.mk "" 1 true none ∈ lex ['"', '"'])
    ∧ ((NgxToken.mk "" 1 true none).is_quoted = true
        ∨ (NgxToken.mk "" 1 true none).error ≠ none) :=
  ⟨by decide, lex_empty_value_tokens ['"', '"'] (NgxToken.mk "" 1 true none)
    (by decide) rfl⟩

theorem stream_next_plain (c : Char) (rest : List Char) (ln : Nat)
    (hbs : c ≠ '\\') (hcr : c ≠ '\r') (hnl : c ≠ '\n') :
    stream_next (StreamState.mk (c :: rest) ln none)
      = (some (CharLine.mk (String.mk [c]) ln), StreamState.mk rest ln none) := by
  have hstep : escape_chars_step (c :: rest) = (some (String.mk [c]), rest) := by
    rw [escape_chars_step.eq_def]
    dsimp only
    rw [if_neg hbs, if_neg hcr]
  have hch : ¬(String.mk [c] = String.mk ['\n']) := by
    simp [String.ext_iff, hnl]
  simp only [stream_next, inner_next, hstep, if_neg hch]

theorem stream_next_pair (c : Char) (rest : List Char) (ln : Nat) (hnl : c ≠ '\n') :
    stream_next (StreamState.mk ('\\' :: c :: rest) ln none)
      = (some (CharLine.mk (String.mk ['\\', c]) ln), StreamState.mk rest ln none) := by
  have hstep : escape_chars_step ('\\' :: c :: rest) = (some (String.mk ['\\', c]), rest) := by
    rw [escape_chars_step.eq_def]
    dsimp only
    rw [if_pos rfl, if_neg hnl]
  have hch : ¬(String.mk ['\\', c] = String.mk ['\n']) := by
    simp [String.ext_iff]
  simp only [stream_next, inner_next, hstep, if_neg hch]

theorem str_ends_with_char_append_single (s : String) (c x : Char) :
    str_ends_with_char (s ++ String.mk [c]) x = (c == x) := by
  have hd : (s ++ String.mk [c]).data = s.data ++ [c] := String.data_append s _
  rw [str_ends_with_char, hd, List.getLast?_concat]

/-- Claim C8, counterexample: in `a${b  c};` the whitespace inside the
braces does split the fragment: the result contains the tokens `a${b `, `c`,
`}` and `;`, and no token carries the whole `a${b  c}` fragment. -/
theorem scan_dollar_verbatim_cex :
    tokenize ['a', '$', '{', 'b', ' ', ' ', 'c', '}', ';']
      = [wordTok (String.mk ['a', '$', '{', 'b', ' ']) 1, wordTok (String.mk ['c']) 1,
         wordTok (String.mk ['}']) 1, wordTok (String.mk [';']) 1]
    ∧ ∀ u ∈ tokenize ['a', '$', '{', 'b', ' ', ' ', 'c', '}', ';'],
        u.value ≠ String.mk ['a', '$', '{', 'b', ' ', ' ', 'c', '}'] := by
  decide

/-- Claim C8, amended: after a pending token ending in `$` meets `{`, the
tokenizer appends characters verbatim only until a `}` has been appended, a
whitespace character is reached, or input ends.  A `${...}` fragment with no
internal whitespace is appended whole, closing brace included (first
conjunct), and once the buffer ends with `}` the verbatim phase appends
nothing more (second conjunct); whitespace inside the braces ends the
verbatim phase early, so such fragments are split rather than kept as one
token. -/
theorem scan_dollar_verbatim :
    (∀ (interior : List Char) (f ln : Nat) (rest : List Char) (tok : String),
      (∀ c ∈ interior, rust_is_whitespace c = false ∧ c ≠ '}' ∧ c ≠ '\\' ∧ c ≠ '\r') →
      str_ends_with_char tok '}' = false →
      scan_dollar (f + interior.length + 1)
          (StreamState.mk (interior ++ '}' :: rest) ln none) tok
        = scan_dollar f (StreamState.mk rest ln none)
            (tok ++ String.mk (interior ++ ['}'])))
    ∧ (∀ (f : Nat) (s : StreamState) (tok : String),
      str_ends_with_char tok '}' = true → (scan_dollar f s tok).1 = tok) := by
  constructor
  · intro interior
    induction interior with
    | nil =>
      intro f ln rest tok hchars hend
      rw [List.nil_append, scan_dollar,
        stream_next_plain '}' rest ln (by decide) (by decide) (by decide)]
      dsimp only
      rw [if_pos ⟨hend, by decide⟩]
      simp
    | cons c cs ih =>
      intro f ln rest tok hchars hend
      obtain ⟨hw, hbrace, hbs, hcr⟩ := hchars c (List.mem_cons_self c cs)
      have hnl : c ≠ '\n' := by
        intro h
        rw [h] at hw
        exact absurd hw (by decide)
      have hlen : f + (c :: cs).length + 1 = (f + cs.length + 1) + 1 := by
        simp [List.length_cons]
        omega
      rw [List.cons_append, hlen, scan_dollar,
        stream_next_plain c (cs ++ '}' :: rest) ln hbs hcr hnl]
      dsimp only
      have hws1 : isWsStr (String.mk [c]) = false := by
        simp [isWsStr, hw]
      rw [if_pos ⟨hend, hws1⟩]
      have hend2 : str_ends_with_char (tok ++ String.mk [c]) '}' = false := by
        rw [str_ends_with_char_append_single]
        simp [hbrace]
      rw [ih f ln rest (tok ++ String.mk [c])
        (fun d hd => hchars d (List.mem_cons_of_mem c hd)) hend2]
      congr 1
      apply String.ext
      simp [String.data_append]
  · intro f s tok h
    cases f with
    | zero => rfl
    | succ f =>
      rw [scan_dollar]
      rcases hsn : stream_next s with ⟨o, s2⟩
      cases o with
      | none => rfl
      | some ncl =>
        dsimp only
        rw [if_neg]
        intro hcond
        rw [h] at hcond
        exact absurd hcond.1 (by decide)

/-- Witness for `scan_dollar_verbatim` on the fragment `${v}` inside the
buffer `a${`. -/
theorem scan_dollar_verbatim_witness :
    (str_ends_with_char (String.mk ['a', '$', '{']) '}' = false)
    ∧ scan_dollar (2 + ['v'].length + 1) (StreamState.mk (['v'] ++ '}' :: [';']) 1 none)
        (String.mk ['a', '$', '{'])
        = scan_dollar 2 (StreamState.mk [';'] 1 none)
            (String.mk ['a', '$', '{'] ++ String.mk (['v'] ++ ['}'])) :=
  ⟨by decide, scan_dollar_verbatim.1 ['v'] 2 1 [';'] (String.mk ['a', '$', '{'])
    (by decide) (by decide)⟩

/-- Claim C9: inside a quoted string, a two-character backslash pair whose
second character is the opening delimiter contributes exactly one literal
delimiter to the token value, while a pair with any other second character
is appended as the literal two-character sequence (first conjunct); in
particular the single-quoted input `'it\'s'` lexes to the single quoted
token `it's` (second conjunct). -/
theorem quoted_escape_delimiter :
    (∀ (qc c : Char) (fuel ln : Nat) (rest : List Char) (tok : String),
      (qc = '"' ∨ qc = '\'') → c ≠ '\n' →
      scan_quote (fuel + 1) (StreamState.mk ('\\' :: c :: rest) ln none)
          (String.mk [qc]) tok
        = scan_quote fuel (StreamState.mk rest ln none) (String.mk [qc])
            (tok ++ (if c = qc then String.mk [qc] else String.mk ['\\', c])))
    ∧ lex ['\'', 'i', 't', '\\', '\'', 's', '\'']
        = [NgxToken.mk (String.mk ['i', 't', '\'', 's']) 1 true none] := by
  constructor
  · intro qc c fuel ln rest tok hq hnl
    rw [scan_quote, stream_next_pair c rest ln hnl]
    dsimp only
    have hne1 : ¬(String.mk ['\\', c] = String.mk [qc]) := by
      simp [String.ext_iff]
    have happ : String.mk ['\\'] ++ String.mk [qc] = String.mk ['\\', qc] := by
      apply String.ext
      simp [String.data_append]
    rw [if_neg hne1, happ]
    by_cases hc : c = qc
    · rw [if_pos (by rw [hc]), if_pos hc]
    · rw [if_neg (by simp [String.ext_iff, hc]), if_neg hc]
  · decide

/-- Witness for `quoted_escape_delimiter`: a backslash pair `\x` inside a
single-quoted string is appended as the two characters. -/
theorem quoted_escape_delimiter_witness :
    (('x' : Char) ≠ '\n')
    ∧ scan_quote (2 + 1) (StreamState.mk ['\\', 'x'] 1 none) (String.mk ['\'']) ""
        = scan_quote 2 (StreamState.mk [] 1 none) (String.mk ['\''])
            ("" ++ (if 'x' = '\'' then String.mk ['\''] else String.mk ['\\', 'x'])) :=
  ⟨by decide, quoted_escape_delimiter.1 '\'' 'x' 2 1 [] "" (Or.inr rfl) (by decide)⟩

/-- Witness for `balance_braces_balanced_id` on `events { }`. -/
theorem balance_braces_balanced_id_witness :
    (∀ i : Nat,
      i ≤ [wordTok "events" 1, wordTok (String.mk ['{']) 1,
           wordTok (String.mk ['}']) 1].length
      → 0 ≤ depthAfter ([wordTok "events" 1, wordTok (String.mk ['{']) 1,
           wordTok (String.mk ['}']) 1].take i))
    ∧ balance_braces [wordTok "events" 1, wordTok (String.mk ['{']) 1,
           wordTok (String.mk ['}']) 1]
        = [wordTok "events" 1, wordTok (String.mk ['{']) 1,
           wordTok (String.mk ['}']) 1] :=
  ⟨by decide,
    balance_braces_balanced_id [wordTok "events" 1, wordTok (String.mk ['{']) 1,
      wordTok (String.mk ['}']) 1] (by decide) (by decide)⟩
